import Mathlib

/-!
Verification of the `file-org` utility (src/file_org.py).

Strings (file names, paths, hash digests, CSV fields) are modelled as lists
of Unicode codepoints (`List Nat`).  Pure fragments of the Python source are
translated into Lean functions; the effectful parts (filesystem, logging)
are made explicit through environment parameters and returned report values.
-/

set_option autoImplicit false

namespace FileOrg

/-- A string, as its list of Unicode codepoints.  `95` is an underscore,
`46` is a dot, `48`..`57` are the decimal digits. -/
abbrev Str := List Nat

/-! ## Decimal rendering of an integer, as used by the f-string
`f"{name}_{n}{ext}"` in `move_duplicates` (line 130) and
`flatten_directory` (line 183). -/

/-- Little-endian decimal digits of `n`; the first argument is structural
fuel (`n` itself is always enough fuel). -/
def decDigitsAux : Nat → Nat → List Nat
  | 0, _ => []
  | fuel + 1, n => if n = 0 then [] else n % 10 :: decDigitsAux fuel (n / 10)

/-- Evaluate a little-endian digit list back to the number it denotes. -/
def fromDigits (l : List Nat) : Nat := l.foldr (fun d acc => d + 10 * acc) 0

/-- Codepoints of the usual decimal rendering of `n` (most significant digit
first), as produced by Python string interpolation of an `int`. -/
def decRepr (n : Nat) : Str := ((decDigitsAux n n).reverse.map (fun d => 48 + d))

theorem decDigitsAux_spec : ∀ fuel n, n ≤ fuel → fromDigits (decDigitsAux fuel n) = n := by
  intro fuel
  induction fuel with
  | zero =>
    intro n h
    have hn : n = 0 := Nat.le_zero.mp h
    subst hn
    rfl
  | succ f ih =>
    intro n h
    by_cases h0 : n = 0
    · subst h0; rfl
    · have hdiv : n / 10 ≤ f := by
        have : n / 10 < n := Nat.div_lt_self (Nat.pos_of_ne_zero h0) (by norm_num)
        omega
      have := ih (n / 10) hdiv
      simp only [decDigitsAux, if_neg h0, fromDigits, List.foldr_cons]
      show n % 10 + 10 * fromDigits (decDigitsAux f (n / 10)) = n
      rw [this, Nat.mod_add_div]

theorem decRepr_inj : Function.Injective decRepr := by
  intro a b h
  have h2 : (decDigitsAux a a).reverse.map ((fun d => 48 + d) : Nat → Nat) =
      (decDigitsAux b b).reverse.map (fun d => 48 + d) := h
  have h3 : (decDigitsAux a a).reverse = (decDigitsAux b b).reverse := by
    have hmm := congrArg (List.map (fun x => x - 48)) h2
    simp only [List.map_map] at hmm
    have hid : ((fun x => x - 48) ∘ fun d => (48 : Nat) + d) = id := by
      funext d; simp
    rw [hid, List.map_id, List.map_id] at hmm
    exact hmm
  have h4 : decDigitsAux a a = decDigitsAux b b := List.reverse_injective h3
  have ha := decDigitsAux_spec a a (Nat.le_refl a)
  have hb := decDigitsAux_spec b b (Nat.le_refl b)
  rw [← ha, ← hb, h4]

theorem decRepr_ne_nil {n : Nat} (h : 1 ≤ n) : decRepr n ≠ [] := by
  cases n with
  | zero => omega
  | succ m =>
    simp [decRepr, decDigitsAux]

/-! ## The collision-avoiding candidate sequence of the Safe Mover.

`move_duplicates` lines 123-132 and `flatten_directory` lines 177-185 start
from the source's base name and, while the destination path exists, try
`name_1.ext`, `name_2.ext`, … . -/

/-- The `k`-th candidate file name probed by the while loop: candidate `0`
is the plain base name `name ++ ext`, candidate `n+1` is `name_{n+1}ext`. -/
def candidate (stem ext : Str) : Nat → Str
  | 0 => stem ++ ext
  | n + 1 => stem ++ [95] ++ decRepr (n + 1) ++ ext

theorem candidate_inj (stem ext : Str) : Function.Injective (candidate stem ext) := by
  have len1 : ∀ n : Nat, 1 ≤ n → 1 ≤ (decRepr n).length := by
    intro n hn
    have := decRepr_ne_nil hn
    cases hd : decRepr n with
    | nil => exact absurd hd this
    | cons a l => simp
  intro m n h
  match m, n with
  | 0, 0 => rfl
  | 0, n + 1 =>
    exfalso
    have hlen := congrArg List.length h
    have := len1 (n + 1) (by omega)
    simp [candidate, List.length_append] at hlen
    omega
  | m + 1, 0 =>
    exfalso
    have hlen := congrArg List.length h
    have := len1 (m + 1) (by omega)
    simp [candidate, List.length_append] at hlen
    omega
  | m + 1, n + 1 =>
    have h0 : stem ++ ([95] ++ (decRepr (m + 1) ++ ext)) =
        stem ++ ([95] ++ (decRepr (n + 1) ++ ext)) := by
      have hh : candidate stem ext (m + 1) = candidate stem ext (n + 1) := h
      simp only [candidate, List.append_assoc] at hh
      exact hh
    have h2 := List.append_cancel_left h0
    have h3 := List.append_cancel_left h2
    have h4 := List.append_cancel_right h3
    have := decRepr_inj h4
    omega

/-- The while loop of the Safe Mover, with explicit fuel: starting at
candidate index `n`, return the index of the first candidate that does not
already exist in the destination directory (whose current contents are
`existing`), or `none` if the fuel runs out first.  Each unfolding is one
`os.path.exists` probe. -/
def probe (existing : List Str) (stem ext : Str) : Nat → Nat → Option Nat
  | _, 0 => none
  | n, fuel + 1 =>
    if candidate stem ext n ∈ existing then probe existing stem ext (n + 1) fuel
    else some n

/-- Index of the candidate name actually chosen for a relocation into a
directory currently holding `existing`; fuel `existing.length + 1` is always
sufficient (`probe_destIdx` below). -/
def destIdx (existing : List Str) (stem ext : Str) : Nat :=
  (probe existing stem ext 0 (existing.length + 1)).getD 0

/-- The destination file name chosen by the Safe Mover's collision loop. -/
def destName (existing : List Str) (stem ext : Str) : Str :=
  candidate stem ext (destIdx existing stem ext)

theorem probe_sound (existing : List Str) (stem ext : Str) :
    ∀ fuel n k, probe existing stem ext n fuel = some k →
      candidate stem ext k ∉ existing ∧ n ≤ k ∧
      ∀ m, n ≤ m → m < k → candidate stem ext m ∈ existing := by
  intro fuel
  induction fuel with
  | zero => intro n k h; simp [probe] at h
  | succ f ih =>
    intro n k h
    by_cases hm : candidate stem ext n ∈ existing
    · rw [probe, if_pos hm] at h
      obtain ⟨h1, h2, h3⟩ := ih (n + 1) k h
      refine ⟨h1, by omega, ?_⟩
      intro m hnm hmk
      rcases Nat.eq_or_lt_of_le hnm with rfl | hlt
      · exact hm
      · exact h3 m hlt hmk
    · rw [probe, if_neg hm] at h
      obtain rfl : n = k := by simpa using h
      exact ⟨hm, Nat.le_refl n, fun m h1 h2 => absurd (Nat.lt_of_le_of_lt h1 h2) (Nat.lt_irrefl n)⟩

theorem probe_complete (existing : List Str) (stem ext : Str) :
    ∀ fuel n k, candidate stem ext k ∉ existing →
      (∀ m, n ≤ m → m < k → candidate stem ext m ∈ existing) →
      n ≤ k → k < n + fuel →
      probe existing stem ext n fuel = some k := by
  intro fuel
  induction fuel with
  | zero => intro n k _ _ _ h; omega
  | succ f ih =>
    intro n k hfree hmin hnk hlt
    by_cases heq : n = k
    · subst heq
      rw [probe, if_neg hfree]
    · have hn : candidate stem ext n ∈ existing := hmin n (Nat.le_refl n) (by omega)
      rw [probe, if_pos hn]
      exact ih (n + 1) k hfree (fun m h1 h2 => hmin m (by omega) h2) (by omega) (by omega)

theorem probe_exhaust (existing : List Str) (stem ext : Str) :
    ∀ fuel n, (∀ m, n ≤ m → m < n + fuel → candidate stem ext m ∈ existing) →
      probe existing stem ext n fuel = none := by
  intro fuel
  induction fuel with
  | zero => intro n _; rfl
  | succ f ih =>
    intro n h
    have hn : candidate stem ext n ∈ existing := h n (Nat.le_refl n) (by omega)
    rw [probe, if_pos hn]
    exact ih (n + 1) (fun m h1 h2 => h m (by omega) (by omega))

/-- Pigeonhole: some candidate index not larger than the number of files
already in the destination directory is free. -/
theorem free_candidate_exists (existing : List Str) (stem ext : Str) :
    ∃ k, k ≤ existing.length ∧ candidate stem ext k ∉ existing := by
  by_contra hc
  push_neg at hc
  set L := existing.length with hL
  set lst := (List.range (L + 1)).map (candidate stem ext) with hlst
  have hnodup : lst.Nodup := (List.nodup_range (L + 1)).map (candidate_inj stem ext)
  have hsub : ∀ x ∈ lst, x ∈ existing := by
    intro x hx
    rw [hlst, List.mem_map] at hx
    obtain ⟨i, hi, rfl⟩ := hx
    exact hc i (by simpa using Nat.lt_succ_iff.mp (List.mem_range.mp hi))
  have hlen : lst.length = L + 1 := by simp [hlst]
  have hcard1 : lst.toFinset.card = L + 1 := by
    rw [List.toFinset_card_of_nodup hnodup, hlen]
  have hsubF : lst.toFinset ⊆ existing.toFinset := by
    intro x hx
    rw [List.mem_toFinset] at hx ⊢
    exact hsub x hx
  have := Finset.card_le_card hsubF
  have := List.toFinset_card_le existing
  omega

/-- The chosen candidate index: it is free, every smaller index collides,
and it is bounded by the directory's current size. -/
theorem destIdx_spec (existing : List Str) (stem ext : Str) :
    candidate stem ext (destIdx existing stem ext) ∉ existing ∧
    (∀ m, m < destIdx existing stem ext → candidate stem ext m ∈ existing) ∧
    destIdx existing stem ext ≤ existing.length := by
  obtain ⟨k, hk, hfree⟩ := free_candidate_exists existing stem ext
  have hex : ∃ j, candidate stem ext j ∉ existing := ⟨k, hfree⟩
  classical
  let j0 := Nat.find hex
  have hj0 : candidate stem ext j0 ∉ existing := Nat.find_spec hex
  have hj0min : ∀ m, m < j0 → candidate stem ext m ∈ existing := by
    intro m hm
    have := Nat.find_min hex hm
    simpa using this
  have hj0le : j0 ≤ k := Nat.find_min' hex hfree
  have hprobe : probe existing stem ext 0 (existing.length + 1) = some j0 :=
    probe_complete existing stem ext (existing.length + 1) 0 j0 hj0
      (fun m _ h2 => hj0min m h2) (Nat.zero_le _) (by omega)
  have hidx : destIdx existing stem ext = j0 := by
    rw [destIdx, hprobe]; rfl
  rw [hidx]
  exact ⟨hj0, hj0min, by omega⟩

/-! ## `os.path.splitext` on a base file name.

Both movers split the base name into `(name, ext)` before building suffixed
candidates (lines 124 and 178).  The extension starts at the last dot,
unless every character before that dot is itself a dot (Python's
`genericpath._splitext` rule, e.g. `.bashrc` has no extension). -/

/-- Model of `os.path.splitext` restricted to a base name (no separators). -/
def splitext (s : Str) : Str × Str :=
  match s.reverse.findIdx? (fun c => c = 46) with
  | none => (s, [])
  | some k =>
    let i := s.length - 1 - k
    if (s.take i).any (fun c => c ≠ 46) then (s.take i, s.drop i) else (s, [])

/-! ## The fingerprint hasher (`process_file`, lines 43-59).

The source streams the file in 4096-byte chunks through `xxhash.xxh64()`
(the XXH64 algorithm of the external `xxhash` package, with its default
seed 0) and records the lowercase hexadecimal digest.  The XXH64 state
machine below is transcribed from the algorithm's public reference
specification; machine words are `Nat`s reduced modulo `2^64`. -/

/-- `2^64`, the word modulus of XXH64. -/
def M : Nat := 2 ^ 64

/-- The five XXH64 prime constants. -/
def P1 : Nat := 11400714785074694791

/-- Second XXH64 prime. -/
def P2 : Nat := 14029467366897019727

/-- Third XXH64 prime. -/
def P3 : Nat := 1609587929392839161

/-- Fourth XXH64 prime. -/
def P4 : Nat := 9650029242287828579

/-- Fifth XXH64 prime. -/
def P5 : Nat := 2870177450012600261

/-- Rotate a 64-bit word left by `r` bits (for `x < 2^64`, `0 < r < 64`). -/
def rotl (r x : Nat) : Nat := (x % 2 ^ (64 - r)) * 2 ^ r + x / 2 ^ (64 - r)

/-- The XXH64 accumulator round. -/
def rnd (acc lane : Nat) : Nat := rotl 31 ((acc + lane * P2) % M) * P1 % M

/-- Merge one running accumulator into the converged hash. -/
def mergeAcc (h acc : Nat) : Nat := ((h ^^^ rnd 0 acc) * P1 + P4) % M

/-- Little-endian value of a byte list. -/
def le64 (bs : List Nat) : Nat := bs.foldr (fun b acc => b + 256 * acc) 0

/-- Fold one 32-byte stripe into the four accumulators. -/
def stripeRound (a : Nat × Nat × Nat × Nat) (s : List Nat) : Nat × Nat × Nat × Nat :=
  (rnd a.1 (le64 (s.take 8)), rnd a.2.1 (le64 ((s.drop 8).take 8)),
   rnd a.2.2.1 (le64 ((s.drop 16).take 8)), rnd a.2.2.2 (le64 ((s.drop 24).take 8)))

/-- Consume complete 32-byte stripes, returning the updated accumulators and
the unconsumed remainder (fewer than 32 bytes). -/
def consumeStripes (a : Nat × Nat × Nat × Nat) (bs : List Nat) :
    (Nat × Nat × Nat × Nat) × List Nat :=
  if _h : 32 ≤ bs.length then consumeStripes (stripeRound a (bs.take 32)) (bs.drop 32)
  else (a, bs)
termination_by bs.length
decreasing_by simp [List.length_drop]; omega

/-- Streaming XXH64 state: seed, four accumulators, the internal buffer of
not-yet-consumed bytes, and the total length absorbed so far. -/
structure XXState where
  seed : Nat
  a1 : Nat
  a2 : Nat
  a3 : Nat
  a4 : Nat
  buf : List Nat
  total : Nat
deriving DecidableEq

/-- Fresh XXH64 state for a given seed (`xxhash.xxh64()` uses seed 0 on
every invocation). -/
def xxInit (seed : Nat) : XXState :=
  ⟨seed, (seed + P1 + P2) % M, (seed + P2) % M, seed % M, (seed + (M - P4 % M)) % M, [], 0⟩

/-- One `hasher.update(chunk)` call (line 51). -/
def xxUpdate (s : XXState) (chunk : List Nat) : XXState :=
  let r := consumeStripes (s.a1, s.a2, s.a3, s.a4) (s.buf ++ chunk)
  ⟨s.seed, r.1.1, r.1.2.1, r.1.2.2.1, r.1.2.2.2, r.2, s.total + chunk.length⟩

/-- Finalization: absorb the trailing single bytes. -/
def finBytes : Nat → List Nat → Nat
  | h, [] => h
  | h, b :: bs => finBytes (rotl 11 (h ^^^ (b * P5) % M) * P1 % M) bs

/-- Finalization: absorb one trailing 4-byte lane if present. -/
def fin4 (h : Nat) (bs : List Nat) : Nat :=
  if 4 ≤ bs.length then
    finBytes ((rotl 23 (h ^^^ (le64 (bs.take 4) * P1 % M)) * P2 + P3) % M) (bs.drop 4)
  else finBytes h bs

/-- Finalization: absorb trailing 8-byte lanes while present. -/
def fin8 (h : Nat) (bs : List Nat) : Nat :=
  if _hl : 8 ≤ bs.length then
    fin8 ((rotl 27 (h ^^^ rnd 0 (le64 (bs.take 8))) * P1 + P4) % M) (bs.drop 8)
  else fin4 h bs
termination_by bs.length
decreasing_by simp [List.length_drop]; omega

/-- The XXH64 avalanche finalizer. -/
def avalanche (h : Nat) : Nat :=
  let x1 := h ^^^ h / 2 ^ 33
  let x2 := x1 * P2 % M
  let x3 := x2 ^^^ x2 / 2 ^ 29
  let x4 := x3 * P3 % M
  x4 ^^^ x4 / 2 ^ 32

/-- `hasher.intdigest()`: converge the accumulators (or use `seed + P5` for
short input), add the total length, absorb the buffered tail, avalanche. -/
def xxDigest (s : XXState) : Nat :=
  let h0 :=
    if 32 ≤ s.total then
      mergeAcc (mergeAcc (mergeAcc (mergeAcc
        ((rotl 1 s.a1 + rotl 7 s.a2 + rotl 12 s.a3 + rotl 18 s.a4) % M) s.a1) s.a2) s.a3) s.a4
    else (s.seed + P5) % M
  avalanche (fin8 ((h0 + s.total) % M) s.buf)

/-- The fixed 4096-byte chunking performed by
`iter(lambda: f.read(4096), b"")` on line 50. -/
def chunks4096 : List Nat → List (List Nat)
  | [] => []
  | b :: bs => ((b :: bs).take 4096) :: chunks4096 ((b :: bs).drop 4096)
termination_by l => l.length
decreasing_by simp [List.length_drop]; omega

/-- One lowercase hexadecimal digit. -/
def hexChar (d : Nat) : Nat := if d < 10 then 48 + d else 87 + d

/-- `hasher.hexdigest()`: the 16-character lowercase hexadecimal rendering
of the 64-bit digest, most significant digit first, zero-padded. -/
def hexRepr (n : Nat) : Str := (List.range 16).map (fun i => hexChar (n / 16 ^ (15 - i) % 16))

/-- One row of the manifest (`process_file`'s result dictionary,
lines 53-59). -/
structure FileRecord where
  full_path : Str
  size : Nat
  creation_time : Str
  modification_time : Str
  xxhash : Str
deriving DecidableEq

/-- `process_file` (lines 43-59) on a file whose metadata and byte content
are given explicitly: the fingerprint folds the 4096-byte chunks of the
content into an XXH64 state seeded with 0. -/
def processFile (full_path creation_time modification_time : Str)
    (content : List Nat) : FileRecord :=
  { full_path := full_path
    size := content.length
    creation_time := creation_time
    modification_time := modification_time
    xxhash := hexRepr (xxDigest (List.foldl xxUpdate (xxInit 0) (chunks4096 content))) }

/-! ## The fingerprint worker pool (`create_file_list`, lines 85-94).

Hashing either returns a record or fails (returns `None` after logging,
lines 60-62); the environment `env` fixes each path's outcome.  Workers
finish in some completion order, a permutation of the submitted paths;
`writer.writerow` runs once per successful result (line 92-93). -/

/-- The rows written to the manifest, given the completion order of the
futures: one row per path whose `process_file` succeeded. -/
def writtenRows (env : Str → Option FileRecord) (completions : List Str) : List FileRecord :=
  completions.filterMap env

/-- The paths whose `process_file` raised and was reported (line 61),
producing no row. -/
def failedItems (env : Str → Option FileRecord) (completions : List Str) : List Str :=
  completions.filter (fun p => (env p).isNone)

/-! ## The Safe Mover's relocation attempt (per single file).

`move_duplicates` lines 133-144 and `flatten_directory` lines 186-202.
An environment value fixes what the filesystem does on this relocation:
how `shutil.move` fails if it fails, whether `shutil.copy2` succeeds, and
how `os.remove` fails if it fails. -/

/-- Outcome of the initial `shutil.move` attempt. -/
inductive MvRes | ok | permErr | otherErr
deriving DecidableEq

/-- Outcome of the fallback `shutil.copy2`. -/
inductive CpRes | ok | err
deriving DecidableEq

/-- Outcome of the fallback `os.remove` of the original. -/
inductive RmRes | ok | permErr | otherErr
deriving DecidableEq

/-- Filesystem behaviour for one relocation attempt. -/
structure MoveCase where
  mv : MvRes
  cp : CpRes
  rm : RmRes
deriving DecidableEq

/-- Severity of the single log line each relocation emits. -/
inductive Severity | info | warning | error
deriving DecidableEq

/-- What one relocation attempt did: the severity of its report, whether
the copy-then-delete fallback ran, whether the source file is gone, whether
the destination file exists afterwards, and whether the enclosing run was
aborted (an uncaught exception). -/
structure MoveReport where
  severity : Severity
  fellBack : Bool
  srcGone : Bool
  dstHas : Bool
  aborted : Bool
deriving DecidableEq

/-- The relocation attempt of `move_duplicates` (lines 133-144): on
`PermissionError` from `shutil.move` it tries `copy2` then `os.remove`,
and ANY exception inside that fallback - including a failure to delete
after a successful copy - is caught by `except Exception` and logged as
an error (line 142). -/
def mdMove (c : MoveCase) : MoveReport :=
  match c.mv with
  | .ok => ⟨.info, false, true, true, false⟩
  | .permErr =>
    match c.cp with
    | .err => ⟨.error, true, false, false, false⟩
    | .ok =>
      match c.rm with
      | .ok => ⟨.info, true, true, true, false⟩
      | .permErr => ⟨.error, true, false, true, false⟩
      | .otherErr => ⟨.error, true, false, true, false⟩
  | .otherErr => ⟨.error, false, false, false, false⟩

/-- The relocation attempt of `flatten_directory` (lines 186-202): same
fallback trigger, but a `PermissionError` from the inner `os.remove` after
a successful copy is logged as a warning (line 196), while any other
delete failure is logged as an error (line 198). -/
def flMove (c : MoveCase) : MoveReport :=
  match c.mv with
  | .ok => ⟨.info, false, true, true, false⟩
  | .permErr =>
    match c.cp with
    | .err => ⟨.error, true, false, false, false⟩
    | .ok =>
      match c.rm with
      | .ok => ⟨.info, true, true, true, false⟩
      | .permErr => ⟨.warning, true, false, true, false⟩
      | .otherErr => ⟨.error, true, false, true, false⟩
  | .otherErr => ⟨.error, false, false, false, false⟩

/-- A relocation counts as successful when the file left the source and
arrived at the destination. -/
def relocatedOk (c : MoveCase) : Bool := (mdMove c).srcGone && (mdMove c).dstHas

/-! ## Grouping by hash (`move_duplicates`, lines 108-112).

`hash_to_files` is a `defaultdict(list)`: insertion-ordered keys, and each
key's list grows by appending in row order. -/

section Grouping

variable {κ π : Type} [DecidableEq κ]

/-- `hash_to_files[k].append(p)` on an insertion-ordered association list. -/
def addEntry : List (κ × List π) → κ → π → List (κ × List π)
  | [], k, p => [(k, [p])]
  | (k', ps) :: t, k, p =>
    if k' = k then (k', ps ++ [p]) :: t else (k', ps) :: addEntry t k p

/-- The `defaultdict` after the CSV read loop: one linear pass appending
each row's path under its hash. -/
def buildGroups (rows : List (κ × π)) : List (κ × List π) :=
  rows.foldl (fun gs r => addEntry gs r.1 r.2) []

/-- Lookup of one key's list (empty when absent). -/
def findGroup : List (κ × List π) → κ → List π
  | [], _ => []
  | (k', ps) :: t, k => if k' = k then ps else findGroup t k

/-- All duplicate candidates, in iteration order: for every group with more
than one member, every member but the first (`files[1:]`, line 119). -/
def dupTargets (gs : List (κ × List π)) : List π :=
  (gs.map (fun g => if 1 < g.2.length then g.2.drop 1 else [])).flatten

/-- The members of one group that are handed to the Safe Mover: the
non-first members that still exist (`os.path.exists`, line 120). -/
def groupPassed (ex : π → Bool) (g : κ × List π) : List π :=
  (if 1 < g.2.length then g.2.drop 1 else []).filter ex

/-- One iteration of the duplicate loop (lines 119-145) acting on the state
`(moved_count, missing-warnings so far, successfully relocated so far)`:
a missing path is only warned about; an existing path always increments
`moved_count` (line 145 sits after the try/except), whether or not its
relocation succeeded. -/
def mdStep (ex : π → Bool) (mc : π → MoveCase) (s : Nat × List π × List π) (p : π) :
    Nat × List π × List π :=
  if ex p then (s.1 + 1, s.2.1, if relocatedOk (mc p) then s.2.2 ++ [p] else s.2.2)
  else (s.1, s.2.1 ++ [p], s.2.2)

/-- The whole duplicate-resolution loop over all duplicate candidates. -/
def mdRun (ex : π → Bool) (mc : π → MoveCase) (gs : List (κ × List π)) :
    Nat × List π × List π :=
  (dupTargets gs).foldl (mdStep ex mc) (0, [], [])

end Grouping

/-! ## Reading the manifest (`csv.DictReader`, lines 109-112).

A CSV file is a list of rows of string fields; the first row is the header.
`DictReader` pads a short row with `None` values (its default `restval`),
so `row['xxhash']` can only raise `KeyError` when the header itself lacks
the column. -/

/-- Reading a field can raise `KeyError` (fatal: nothing catches it). -/
inductive ReadErr | keyError
deriving DecidableEq

/-- Codepoints of `"xxhash"`. -/
def XXHASH : Str := [120, 120, 104, 97, 115, 104]

/-- Codepoints of `"full_path"`. -/
def FULL_PATH : Str := [102, 117, 108, 108, 95, 112, 97, 116, 104]

/-- The row's values aligned to the header: present fields wrapped in
`some`, missing trailing fields padded with `none`, extra fields dropped
(they go under `DictReader`'s rest key, which no code reads). -/
def paddedRow (fieldnames : List Str) (row : List Str) : List (Option Str) :=
  (row.map some ++ List.replicate (fieldnames.length - row.length) none).take fieldnames.length

/-- The dictionary `DictReader` yields for one row. -/
def rowDict (fieldnames : List Str) (row : List Str) : List (Str × Option Str) :=
  fieldnames.zip (paddedRow fieldnames row)

/-- Dictionary lookup where a later binding shadows an earlier one, as in a
Python `dict` built left to right. -/
def lookupLast : List (Str × Option Str) → Str → Option (Option Str)
  | [], _ => none
  | (k, v) :: rest, key =>
    match lookupLast rest key with
    | some r => some r
    | none => if k = key then some v else none

/-- `row[key]`: the value (possibly `None`) if the column exists,
`KeyError` otherwise. -/
def getField (fieldnames row : List Str) (key : Str) : Except ReadErr (Option Str) :=
  match lookupLast (rowDict fieldnames row) key with
  | some v => .ok v
  | none => .error .keyError

/-- The CSV read loop body (lines 111-112) over the data rows: for each row
take `row['xxhash']` and `row['full_path']`; the first `KeyError` aborts
the whole read. -/
def readRows (header : List Str) : List (List Str) → Except ReadErr (List (Option Str × Option Str))
  | [] => .ok []
  | r :: rs =>
    match getField header r XXHASH with
    | .error e => .error e
    | .ok hv =>
      match getField header r FULL_PATH with
      | .error e => .error e
      | .ok pv =>
        match readRows header rs with
        | .error e => .error e
        | .ok rest => .ok ((hv, pv) :: rest)

/-- Reading a whole manifest file: the first row is the header; a file with
no rows yields nothing (a `DictReader` over an empty file is empty). -/
def readManifest : List (List Str) → Except ReadErr (List (Option Str × Option Str))
  | [] => .ok []
  | header :: dataRows => readRows header dataRows

/-- The manifest read followed by the grouping pass (lines 108-112). -/
def resolveGroups (raw : List (List Str)) :
    Except ReadErr (List (Option Str × List (Option Str))) :=
  (readManifest raw).map buildGroups

/-- One resolver run's whole selection: per group the keeper (its first
member) and, over all groups, the list of duplicates to move. -/
def runSelection (raw : List (List Str)) :
    Except ReadErr (List (Option (Option Str)) × List (Option Str)) :=
  (readManifest raw).map (fun rows =>
    ((buildGroups rows).map (fun g => g.2.head?), dupTargets (buildGroups rows)))

/-! ## The flattener (`flatten_directory`, lines 150-216).

The target is a directory tree: the root's own files plus a forest of
named subtrees.  `os.walk` enumeration order is depth-first, parent before
child, siblings in order.  Relocations into the root are modelled as
succeeding (their per-case fallback semantics are `flMove` above); the
final `os.rmdir` pass walks bottom-up (`topdown=False`) and swallows every
removal failure (lines 206-213), with `rmEnv` saying which directories the
filesystem lets the process remove. -/

mutual
/-- A directory: its files and its named subdirectories. -/
inductive FsTree : Type where
  | node (files : List Str) (subs : FsForest)

/-- An ordered forest of named subdirectories. -/
inductive FsForest : Type where
  | nil
  | cons (name : Str) (tree : FsTree) (rest : FsForest)
end

mutual
/-- All files in a tree, in `os.walk` (top-down, depth-first) order. -/
def allFilesTree : FsTree → List Str
  | .node fs subs => fs ++ allFilesForest subs

/-- All files in a forest, in `os.walk` order. -/
def allFilesForest : FsForest → List Str
  | .nil => []
  | .cons _ t rest => allFilesTree t ++ allFilesForest rest
end

/-- One iteration of the move loop of `flatten_directory` (lines 176-204):
the file is given the collision-free `destName` against the root's current
contents, lands in the root, and `moved_count` is bumped (line 203, after
the try/except, so unconditionally). -/
def mvStep (s : List Str × Nat) (f : Str) : List Str × Nat :=
  (s.1 ++ [destName s.1 (splitext f).1 (splitext f).2], s.2 + 1)

/-- The whole move loop of `flatten_directory` over the collected files. -/
def moveAll (root : List Str) (files : List Str) : List Str × Nat :=
  files.foldl mvStep (root, 0)

mutual
/-- The tree after every nested file has been moved out. -/
def clearTree : FsTree → FsTree
  | .node _ subs => .node [] (clearForest subs)

/-- The forest after every nested file has been moved out. -/
def clearForest : FsForest → FsForest
  | .nil => .nil
  | .cons n t rest => .cons n (clearTree t) (clearForest rest)
end

/-- `os.rmdir` only succeeds on a directory with no files and no
subdirectories left. -/
def isEmptyNode : FsTree → Bool
  | .node fs subs => fs.isEmpty && (match subs with | .nil => true | .cons _ _ _ => false)

mutual
/-- The bottom-up removal pass inside one directory (children first, then
the directory itself when empty and permitted; a failure is swallowed and
the directory stays). -/
def pruneTree (rmEnv : List Str → Bool) (path : List Str) : FsTree → FsTree
  | .node fs subs => .node fs (pruneForest rmEnv path subs)

/-- The bottom-up removal pass over a forest of subdirectories. -/
def pruneForest (rmEnv : List Str → Bool) (path : List Str) : FsForest → FsForest
  | .nil => .nil
  | .cons nm t rest =>
    let t2 := pruneTree rmEnv (path ++ [nm]) t
    let rest2 := pruneForest rmEnv path rest
    if isEmptyNode t2 && rmEnv (path ++ [nm]) then rest2 else .cons nm t2 rest2
end

/-- Result of one `flatten_directory` run: the root's final file names, the
reported `moved_count`, and the subdirectories that survived pruning. -/
structure FlatResult where
  root : List Str
  moved : Nat
  subs : FsForest

/-- The whole `flatten_directory` run on a root `node fs subs`: collect
every file strictly below the root (line 158-159 skips the top level),
move each into the root, then prune now-empty subdirectories bottom-up. -/
def flattenModel (t : FsTree) (rmEnv : List Str → Bool) : FlatResult :=
  match t with
  | .node fs subs =>
    { root := (moveAll fs (allFilesForest subs)).1
      moved := (moveAll fs (allFilesForest subs)).2
      subs := pruneForest rmEnv [] (clearForest subs) }

/-! ## Claim C2 and claim C10: the Safe Mover's collision avoidance. -/

/-- C2: a Safe Mover relocation never reuses a name already present in the
destination directory: the base name (candidate 0) is chosen when free;
otherwise the chosen name is `name_n.ext` for the smallest positive `n`
whose candidate is free, every smaller positive suffix having been found
taken; and inserting the chosen name keeps the destination's file names
pairwise distinct. -/
theorem safeMover_no_collision (existing : List Str) (stem ext : Str) :
    destName existing stem ext ∉ existing ∧
    (candidate stem ext 0 ∉ existing → destName existing stem ext = candidate stem ext 0) ∧
    (candidate stem ext 0 ∈ existing →
      ∃ n, 1 ≤ n ∧ destName existing stem ext = candidate stem ext n ∧
        candidate stem ext n ∉ existing ∧
        ∀ m, 1 ≤ m → m < n → candidate stem ext m ∈ existing) ∧
    (existing.Nodup → (destName existing stem ext :: existing).Nodup) := by
  obtain ⟨hfree, hmin, hbound⟩ := destIdx_spec existing stem ext
  refine ⟨hfree, ?_, ?_, ?_⟩
  · intro h0
    rcases Nat.eq_zero_or_pos (destIdx existing stem ext) with hz | hp
    · simp only [destName, hz]
    · exact absurd (hmin 0 hp) h0
  · intro h0
    refine ⟨destIdx existing stem ext, ?_, rfl, hfree, fun m _ hm => hmin m hm⟩
    rcases Nat.eq_zero_or_pos (destIdx existing stem ext) with hz | hp
    · exfalso
      simp only [destName, hz] at hfree
      exact hfree h0
    · exact hp
  · intro hnd
    exact List.nodup_cons.mpr ⟨hfree, hnd⟩

/-- Witness for C2 at a concrete directory {"a", "a_1"} receiving another
"a": the chosen name is fresh and the directory stays duplicate-free. -/
theorem safeMover_no_collision_witness :
    destName [[97], [97, 95, 49]] [97] [] ∉ [[97], [97, 95, 49]] ∧
    (destName [[97], [97, 95, 49]] [97] [] :: [[97], [97, 95, 49]]).Nodup := by
  have h := safeMover_no_collision [[97], [97, 95, 49]] [97] []
  exact ⟨h.1, h.2.2.2 (by decide)⟩

/-- C10: the candidate search always terminates: a smallest free candidate
index exists, is at most the number of files already present, and the
while loop (modelled with fuel, one unfolding per `os.path.exists` probe)
returns that index exactly when it is allowed that many probes, and runs
out of any smaller fuel. -/
theorem candidate_search_terminates (existing : List Str) (stem ext : Str) (fuel : Nat) :
    candidate stem ext (destIdx existing stem ext) ∉ existing ∧
    (∀ m, m < destIdx existing stem ext → candidate stem ext m ∈ existing) ∧
    destIdx existing stem ext ≤ existing.length ∧
    (probe existing stem ext 0 fuel = some (destIdx existing stem ext) ↔
      destIdx existing stem ext < fuel) ∧
    (probe existing stem ext 0 fuel = none ↔ fuel ≤ destIdx existing stem ext) := by
  obtain ⟨hfree, hmin, hbound⟩ := destIdx_spec existing stem ext
  have hsome : destIdx existing stem ext < fuel →
      probe existing stem ext 0 fuel = some (destIdx existing stem ext) := fun hlt =>
    probe_complete existing stem ext fuel 0 _ hfree (fun m _ hm => hmin m hm)
      (Nat.zero_le _) (by omega)
  have hnone : fuel ≤ destIdx existing stem ext → probe existing stem ext 0 fuel = none :=
    fun hle => probe_exhaust existing stem ext fuel 0
      (fun m _ hm => hmin m (by omega))
  refine ⟨hfree, hmin, hbound, ⟨?_, hsome⟩, ⟨?_, hnone⟩⟩
  · intro hp
    by_contra hc
    push_neg at hc
    rw [hnone (by omega)] at hp
    exact Option.noConfusion hp
  · intro hp
    by_contra hc
    push_neg at hc
    rw [hsome (by omega)] at hp
    exact Option.noConfusion hp

/-- Witness for C10 at the directory {"a", "a_1"}: the search settles on
index 2 (name "a_2"), fuel 3 suffices and fuel 2 does not. -/
theorem candidate_search_terminates_witness :
    probe [[97], [97, 95, 49]] [97] [] 0 3 = some (destIdx [[97], [97, 95, 49]] [97] []) ∧
    probe [[97], [97, 95, 49]] [97] [] 0 2 = none ∧
    candidate [97] [] 1 ∈ [[97], [97, 95, 49]] := by
  have h3 := candidate_search_terminates [[97], [97, 95, 49]] [97] [] 3
  have h2 := candidate_search_terminates [[97], [97, 95, 49]] [97] [] 2
  exact ⟨h3.2.2.2.1.mpr (by decide), h2.2.2.2.2.mpr (by decide), h3.2.1 1 (by decide)⟩

/-! ## Structure of the `defaultdict` grouping. -/

section GroupingLemmas

variable {κ π : Type} [DecidableEq κ]

theorem findGroup_addEntry_self : ∀ (gs : List (κ × List π)) (k : κ) (p : π),
    findGroup (addEntry gs k p) k = findGroup gs k ++ [p] := by
  intro gs
  induction gs with
  | nil => intro k p; simp [addEntry, findGroup]
  | cons g t ih =>
    intro k p
    obtain ⟨k', ps⟩ := g
    by_cases h : k' = k
    · subst h; simp [addEntry, findGroup]
    · simp [addEntry, findGroup, h, ih]

theorem findGroup_addEntry_ne : ∀ (gs : List (κ × List π)) (k k' : κ), k' ≠ k → ∀ p,
    findGroup (addEntry gs k' p) k = findGroup gs k := by
  intro gs
  induction gs with
  | nil => intro k k' h p; simp [addEntry, findGroup, h]
  | cons g t ih =>
    intro k k' h p
    obtain ⟨a, ps⟩ := g
    by_cases ha : a = k'
    · subst ha
      simp [addEntry, findGroup, h]
    · by_cases hk : a = k
      · subst hk
        simp [addEntry, findGroup, ha]
      · simp [addEntry, findGroup, ha, hk, ih k k' h p]

theorem findGroup_foldl : ∀ (rows : List (κ × π)) (gs : List (κ × List π)) (k : κ),
    findGroup (rows.foldl (fun gs r => addEntry gs r.1 r.2) gs) k
      = findGroup gs k ++ (rows.filter (fun r => r.1 = k)).map Prod.snd := by
  intro rows
  induction rows with
  | nil => intro gs k; simp
  | cons r rs ih =>
    intro gs k
    simp only [List.foldl_cons]
    rw [ih]
    by_cases h : r.1 = k
    · rw [List.filter_cons_of_pos (by simpa using h)]
      rw [← h, findGroup_addEntry_self]
      simp [h]
    · rw [List.filter_cons_of_neg (by simpa using h)]
      rw [findGroup_addEntry_ne gs k r.1 h r.2]

theorem addEntry_keys : ∀ (gs : List (κ × List π)) (k : κ) (p : π),
    (addEntry gs k p).map Prod.fst =
      if k ∈ gs.map Prod.fst then gs.map Prod.fst else gs.map Prod.fst ++ [k] := by
  intro gs
  induction gs with
  | nil => intro k p; simp [addEntry]
  | cons g t ih =>
    intro k p
    obtain ⟨a, ps⟩ := g
    by_cases ha : a = k
    · subst ha
      simp [addEntry]
    · have hne : ¬ k = a := fun hh => ha hh.symm
      simp only [addEntry, if_neg ha, List.map_cons, List.mem_cons]
      rw [ih k p]
      by_cases hmem : k ∈ t.map Prod.fst
      · simp [hmem, hne]
      · simp [hmem, hne]

theorem addEntry_keys_nodup {gs : List (κ × List π)} {k : κ} {p : π}
    (h : (gs.map Prod.fst).Nodup) : ((addEntry gs k p).map Prod.fst).Nodup := by
  rw [addEntry_keys]
  by_cases hmem : k ∈ gs.map Prod.fst
  · simpa [hmem] using h
  · simp only [if_neg hmem]
    rw [List.nodup_append]
    refine ⟨h, List.nodup_singleton k, ?_⟩
    intro a ha hak
    rw [List.mem_singleton] at hak
    exact hmem (hak ▸ ha)

theorem buildGroups_keys_nodup (rows : List (κ × π)) :
    ((buildGroups rows).map Prod.fst).Nodup := by
  have key : ∀ (l : List (κ × π)) (gs : List (κ × List π)), (gs.map Prod.fst).Nodup →
      ((l.foldl (fun gs r => addEntry gs r.1 r.2) gs).map Prod.fst).Nodup := by
    intro l
    induction l with
    | nil => intro gs h; exact h
    | cons r rs ih => intro gs h; exact ih _ (addEntry_keys_nodup h)
  exact key rows [] (by simp)

theorem findGroup_of_mem : ∀ (gs : List (κ × List π)), (gs.map Prod.fst).Nodup →
    ∀ g ∈ gs, findGroup gs g.1 = g.2 := by
  intro gs
  induction gs with
  | nil => intro _ g hg; simp at hg
  | cons a t ih =>
    intro hnd g hg
    obtain ⟨k', ps⟩ := a
    rw [List.map_cons, List.nodup_cons] at hnd
    rcases List.mem_cons.mp hg with rfl | hmem
    · simp [findGroup]
    · have hne : k' ≠ g.1 := by
        intro hh
        exact hnd.1 (hh ▸ List.mem_map.mpr ⟨g, hmem, rfl⟩)
      simp only [findGroup, if_neg hne]
      exact ih hnd.2 g hmem

theorem buildGroups_mem_content (rows : List (κ × π)) (g : κ × List π)
    (hg : g ∈ buildGroups rows) :
    g.2 = (rows.filter (fun r => r.1 = g.1)).map Prod.snd := by
  have h1 := findGroup_of_mem (buildGroups rows) (buildGroups_keys_nodup rows) g hg
  have h2 := findGroup_foldl rows [] g.1
  rw [buildGroups] at h1
  rw [h1] at h2
  simpa [findGroup] using h2

theorem buildGroups_vals_ne_nil (rows : List (κ × π)) :
    ∀ g ∈ buildGroups rows, g.2 ≠ [] := by
  have hadd : ∀ (gs : List (κ × List π)) (k : κ) (p : π),
      (∀ g ∈ gs, g.2 ≠ []) → ∀ g ∈ addEntry gs k p, g.2 ≠ [] := by
    intro gs
    induction gs with
    | nil =>
      intro k p _ g hg
      simp only [addEntry, List.mem_singleton] at hg
      subst hg; simp
    | cons a t ih =>
      intro k p h g hg
      obtain ⟨k', ps⟩ := a
      by_cases hk : k' = k
      · simp only [addEntry, if_pos hk, List.mem_cons] at hg
        rcases hg with hgeq | hmem
        · rw [hgeq]; simp
        · exact h g (List.mem_cons_of_mem _ hmem)
      · simp only [addEntry, if_neg hk, List.mem_cons] at hg
        rcases hg with hgeq | hmem
        · rw [hgeq]; exact h _ (List.mem_cons_self _ _)
        · exact ih k p (fun x hx => h x (List.mem_cons_of_mem _ hx)) g hmem
  have key : ∀ (l : List (κ × π)) (gs : List (κ × List π)), (∀ g ∈ gs, g.2 ≠ []) →
      ∀ g ∈ l.foldl (fun gs r => addEntry gs r.1 r.2) gs, g.2 ≠ [] := by
    intro l
    induction l with
    | nil => intro gs h; exact h
    | cons r rs ih => intro gs h; exact ih _ (hadd gs r.1 r.2 h)
  intro g hg
  exact key rows [] (by simp) g hg

end GroupingLemmas

/-! ## Claim C1: the resolver keeps the first member, moves the rest. -/

/-- C1: for every hash group built from a manifest whose paths all still
exist and are pairwise distinct, the group's member list is exactly the
manifest rows carrying that hash in row order; when the group has `k ≥ 2`
members, the Safe Mover receives exactly the `k - 1` non-first members and
the first member is not among them; a group of size 1 contributes nothing
to the mover. -/
theorem resolver_first_kept_rest_passed (m : List (Str × Str)) (ex : Str → Bool)
    (hex : ∀ p, ex p = true) (hnd : (m.map Prod.snd).Nodup) :
    ∀ g ∈ buildGroups m,
      g.2 = (m.filter (fun r => r.1 = g.1)).map Prod.snd ∧
      g.2 ≠ [] ∧
      (2 ≤ g.2.length →
        groupPassed ex g = g.2.drop 1 ∧
        (groupPassed ex g).length = g.2.length - 1 ∧
        g.2.take 1 ++ groupPassed ex g = g.2 ∧
        ∀ x ∈ g.2.take 1, x ∉ groupPassed ex g) ∧
      (g.2.length = 1 → groupPassed ex g = []) := by
  intro g hg
  have hcontent := buildGroups_mem_content m g hg
  have hne := buildGroups_vals_ne_nil m g hg
  have hsub : g.2.Sublist (m.map Prod.snd) := by
    rw [hcontent]
    exact (List.filter_sublist m).map Prod.snd
  have hgnd : g.2.Nodup := hnd.sublist hsub
  refine ⟨hcontent, hne, ?_, ?_⟩
  · intro hlen
    have h1 : (1 : Nat) < g.2.length := by omega
    have hpass : groupPassed ex g = g.2.drop 1 := by
      rw [groupPassed, if_pos h1]
      exact List.filter_eq_self.mpr (fun a _ => hex a)
    refine ⟨hpass, by rw [hpass]; simp, by rw [hpass]; exact List.take_append_drop 1 g.2, ?_⟩
    intro x hx
    rw [hpass]
    exact (List.disjoint_take_drop hgnd (Nat.le_refl 1)) hx
  · intro hlen
    rw [groupPassed, if_neg (by omega)]
    rfl

/-- Witness for C1 on the manifest [(h,"a"), (h,"b"), (h2,"c")] with every
path existing: in the h-group "a" is kept and exactly ["b"] is passed; the
h2-group passes nothing. -/
theorem resolver_first_kept_rest_passed_witness :
    groupPassed (fun _ => true) (([104] : Str), ([[97], [98]] : List Str)) = [[98]] ∧
    groupPassed (fun _ => true) (([105] : Str), ([[99]] : List Str)) = [] := by
  have h := resolver_first_kept_rest_passed
    [([104], [97]), ([104], [98]), ([105], [99])] (fun _ => true)
    (fun p => rfl) (by decide)
  have h1 := h (([104] : Str), ([[97], [98]] : List Str)) (by decide)
  have h2 := h (([105] : Str), ([[99]] : List Str)) (by decide)
  exact ⟨(h1.2.2.1 (by decide)).1, h2.2.2.2 (by decide)⟩

/-! ## Claim C3: deterministic fingerprinting. -/

theorem chunks4096_nil : chunks4096 [] = [] := by
  rw [chunks4096]

theorem chunks4096_cons (b : Nat) (bs : List Nat) :
    chunks4096 (b :: bs) = ((b :: bs).take 4096) :: chunks4096 ((b :: bs).drop 4096) := by
  rw [chunks4096]

theorem chunks4096_flatten : ∀ l : List Nat, (chunks4096 l).flatten = l := by
  have key : ∀ n l, List.length l ≤ n → (chunks4096 l).flatten = l := by
    intro n
    induction n with
    | zero =>
      intro l h
      have hl : l = [] := List.eq_nil_of_length_eq_zero (by omega)
      subst hl
      simp [chunks4096_nil]
    | succ n ih =>
      intro l h
      cases l with
      | nil => simp [chunks4096_nil]
      | cons b bs =>
        have hd : (List.drop 4096 (b :: bs)).length ≤ n := by
          simp only [List.length_drop, List.length_cons]
          simp only [List.length_cons] at h
          omega
        rw [chunks4096_cons, List.flatten_cons, ih _ hd]
        exact List.take_append_drop 4096 (b :: bs)
  intro l
  exact key l.length l (Nat.le_refl _)

theorem chunks4096_length_le : ∀ l : List Nat, ∀ ch ∈ chunks4096 l, ch.length ≤ 4096 := by
  have key : ∀ n l, List.length l ≤ n → ∀ ch ∈ chunks4096 l, ch.length ≤ 4096 := by
    intro n
    induction n with
    | zero =>
      intro l h ch hch
      have hl : l = [] := List.eq_nil_of_length_eq_zero (by omega)
      subst hl
      rw [chunks4096_nil] at hch
      simp at hch
    | succ n ih =>
      intro l h ch hch
      cases l with
      | nil => rw [chunks4096_nil] at hch; simp at hch
      | cons b bs =>
        rw [chunks4096_cons] at hch
        rcases List.mem_cons.mp hch with hc | hc
        · rw [hc]
          simp [List.length_take]
        · have hd : (List.drop 4096 (b :: bs)).length ≤ n := by
            simp only [List.length_drop, List.length_cons]
            simp only [List.length_cons] at h
            omega
          exact ih _ hd ch hc
  intro l
  exact key l.length l (Nat.le_refl _)

/-- C3: the fingerprint of a file depends only on its byte content - not
on its path, timestamps or any other ambient input: two `process_file`
invocations on byte-identical content produce the same digest string and
the same size, and the digest is exactly the XXH64 state (seed 0 on every
invocation) folded over the content's fixed 4096-byte chunks, which
partition the content. -/
theorem fingerprint_deterministic (p1 p2 ct1 mt1 ct2 mt2 : Str) (content : List Nat) :
    (processFile p1 ct1 mt1 content).xxhash = (processFile p2 ct2 mt2 content).xxhash ∧
    (processFile p1 ct1 mt1 content).size = (processFile p2 ct2 mt2 content).size ∧
    (processFile p1 ct1 mt1 content).xxhash =
      hexRepr (xxDigest (List.foldl xxUpdate (xxInit 0) (chunks4096 content))) ∧
    (chunks4096 content).flatten = content ∧
    (∀ ch ∈ chunks4096 content, ch.length ≤ 4096) :=
  ⟨rfl, rfl, rfl, chunks4096_flatten content, chunks4096_length_le content⟩

/-! ## Claim C4: the worker pool loses nothing. -/

theorem filterMap_isNone_partition (env : Str → Option FileRecord) :
    ∀ l : List Str,
      (l.filterMap env).length + (l.filter (fun p => (env p).isNone)).length = l.length := by
  intro l
  induction l with
  | nil => rfl
  | cons a t ih =>
    cases henv : env a with
    | none =>
      simp [List.filterMap_cons, List.filter_cons, henv]
      omega
    | some r =>
      simp [List.filterMap_cons, List.filter_cons, henv]
      omega

/-- C4: in whatever order the futures complete (any permutation of the
submitted paths), each path is attempted exactly once, a successful attempt
contributes exactly one manifest row and a failed attempt exactly one
reported failure, and rows plus failures add up to the number of input
paths. -/
theorem countP_eq_one_of_nodup_mem :
    ∀ (l : List Str) (p : Str), l.Nodup → p ∈ l → l.countP (fun q => q = p) = 1 := by
  intro l
  induction l with
  | nil => intro p _ hp; simp at hp
  | cons a t ih =>
    intro p hnd hp
    rw [List.nodup_cons] at hnd
    rcases List.mem_cons.mp hp with rfl | hmem
    · rw [List.countP_cons_of_pos _ _ (by simp)]
      have hz : t.countP (fun q => q = p) = 0 := by
        rw [List.countP_eq_zero]
        intro q hq
        simp only [decide_eq_true_eq]
        intro hqp
        exact hnd.1 (hqp ▸ hq)
      omega
    · have hne : ¬(a = p) := by
        intro hh
        exact hnd.1 (hh ▸ hmem)
      rw [List.countP_cons_of_neg _ _ (by simpa using hne)]
      exact ih p hnd.2 hmem

theorem workerPool_exactly_once (env : Str → Option FileRecord) (paths completions : List Str)
    (hperm : completions.Perm paths) :
    (writtenRows env completions).length + (failedItems env completions).length = paths.length ∧
    (∀ p, completions.countP (fun q => q = p) = paths.countP (fun q => q = p)) ∧
    (paths.Nodup → ∀ p ∈ paths, completions.countP (fun q => q = p) = 1) := by
  refine ⟨?_, fun p => hperm.countP_eq (fun q => q = p), fun hnd p hp => ?_⟩
  · rw [writtenRows, failedItems, filterMap_isNone_partition env completions, hperm.length_eq]
  · rw [hperm.countP_eq (fun q => q = p)]
    exact countP_eq_one_of_nodup_mem paths p hnd hp

/-- Witness for C4: two paths, of which only "a" hashes successfully,
completing in reversed order: one row plus one failure covers both paths,
and "a" is attempted exactly once. -/
theorem workerPool_exactly_once_witness :
    (writtenRows (fun p => if p = [97] then some ⟨[97], 0, [], [], []⟩ else none)
        [[98], [97]]).length +
      (failedItems (fun p => if p = [97] then some ⟨[97], 0, [], [], []⟩ else none)
        [[98], [97]]).length = ([[97], [98]] : List Str).length ∧
    List.countP (fun q => q = ([97] : Str)) [[98], [97]] = 1 := by
  have h := workerPool_exactly_once
    (fun p => if p = [97] then some ⟨[97], 0, [], [], []⟩ else none)
    [[97], [98]] [[98], [97]] (by decide)
  exact ⟨h.1, h.2.2 (by decide) [97] (by decide)⟩

/-! ## Claim C5: the permission-denied fallback (corrected). -/

/-- C5 counterexample: in `move_duplicates`, when the move hits
`PermissionError`, the copy succeeds and the delete of the original then
fails, the outcome is logged as an ERROR (line 142), not as the
partial-success warning the claim asserts. -/
theorem safeMover_fallback_cex :
    (mdMove ⟨.permErr, .ok, .permErr⟩).fellBack = true ∧
    (mdMove ⟨.permErr, .ok, .permErr⟩).dstHas = true ∧
    (mdMove ⟨.permErr, .ok, .permErr⟩).severity = Severity.error ∧
    Severity.error ≠ Severity.warning := by decide

/-- C5 amended: in both movers the copy-then-delete fallback runs exactly
on a permission-denied move failure, and no relocation outcome aborts the
run; but the copy-succeeded/delete-failed outcome is reported as a
partial-success warning only in `flatten_directory` and only when the
delete failure is itself a permission error - `move_duplicates` reports
every fallback failure as an error, as does `flatten_directory` for a
non-permission delete failure; failures before anything is copied leave
the original in place and are reported as errors. -/
theorem safeMover_fallback_semantics (c : MoveCase) :
    ((mdMove c).fellBack = true ↔ c.mv = MvRes.permErr) ∧
    ((flMove c).fellBack = true ↔ c.mv = MvRes.permErr) ∧
    (c.mv = MvRes.permErr → c.cp = CpRes.ok → c.rm = RmRes.permErr →
      (flMove c).severity = Severity.warning ∧ (flMove c).srcGone = false ∧
      (flMove c).dstHas = true ∧ (mdMove c).severity = Severity.error) ∧
    (c.mv = MvRes.permErr → c.cp = CpRes.ok → c.rm = RmRes.otherErr →
      (flMove c).severity = Severity.error ∧ (mdMove c).severity = Severity.error) ∧
    (c.mv = MvRes.permErr → c.cp = CpRes.err →
      (mdMove c).severity = Severity.error ∧ (mdMove c).srcGone = false ∧
      (flMove c).severity = Severity.error ∧ (flMove c).srcGone = false) ∧
    (c.mv = MvRes.otherErr →
      (mdMove c).severity = Severity.error ∧ (mdMove c).srcGone = false ∧
      (flMove c).severity = Severity.error ∧ (flMove c).srcGone = false) ∧
    (mdMove c).aborted = false ∧ (flMove c).aborted = false := by
  obtain ⟨mv, cp, rm⟩ := c
  cases mv <;> cases cp <;> cases rm <;> simp [mdMove, flMove]

/-- Witness for C5 (amended) at the copy-ok/delete-permission-denied case:
`flatten_directory` warns while `move_duplicates`' fallback did run. -/
theorem safeMover_fallback_semantics_witness :
    (flMove ⟨.permErr, .ok, .permErr⟩).severity = Severity.warning ∧
    (mdMove ⟨.permErr, .ok, .permErr⟩).fellBack = true := by
  have h := safeMover_fallback_semantics ⟨.permErr, .ok, .permErr⟩
  exact ⟨(h.2.2.1 rfl rfl rfl).1, h.1.mpr rfl⟩

/-! ## Claim C6: what `moved_count` actually counts (corrected). -/

theorem mdRun_count (ex : Str → Bool) (mc : Str → MoveCase) :
    ∀ (l : List Str) (s : Nat × List Str × List Str),
      (l.foldl (mdStep ex mc) s).1 = s.1 + (l.filter ex).length := by
  intro l
  induction l with
  | nil => intro s; simp
  | cons a t ih =>
    intro s
    rw [List.foldl_cons, ih]
    by_cases hex : ex a
    · simp [mdStep, hex, List.filter_cons]
      omega
    · simp [mdStep, hex, List.filter_cons]

theorem mdRun_missing (ex : Str → Bool) (mc : Str → MoveCase) :
    ∀ (l : List Str) (s : Nat × List Str × List Str),
      (l.foldl (mdStep ex mc) s).2.1 = s.2.1 ++ l.filter (fun p => !(ex p)) := by
  intro l
  induction l with
  | nil => intro s; simp
  | cons a t ih =>
    intro s
    rw [List.foldl_cons, ih]
    by_cases hex : ex a
    · simp [mdStep, hex, List.filter_cons]
    · simp [mdStep, hex, List.filter_cons]

theorem mdRun_reloc (ex : Str → Bool) (mc : Str → MoveCase) :
    ∀ (l : List Str) (s : Nat × List Str × List Str),
      (l.foldl (mdStep ex mc) s).2.2 =
        s.2.2 ++ (l.filter ex).filter (fun p => relocatedOk (mc p)) := by
  intro l
  induction l with
  | nil => intro s; simp
  | cons a t ih =>
    intro s
    rw [List.foldl_cons, ih]
    by_cases hex : ex a
    · by_cases hrel : relocatedOk (mc a)
      · simp [mdStep, hex, hrel, List.filter_cons]
      · simp [mdStep, hex, hrel, List.filter_cons]
    · simp [mdStep, hex, List.filter_cons]

/-- C6 counterexample: a manifest with one duplicate pair whose single
relocation attempt fails with a non-permission error: the run reports
"Total duplicates moved: 1" although 0 duplicates were relocated (line 145
increments the counter after the exception was caught and logged). -/
theorem moveDuplicates_count_cex :
    (mdRun (fun _ => true) (fun _ => ⟨.otherErr, .ok, .ok⟩)
      (buildGroups [(([104] : Str), ([97] : Str)), ([104], [98])])).1 = 1 ∧
    (mdRun (fun _ => true) (fun _ => ⟨.otherErr, .ok, .ok⟩)
      (buildGroups [(([104] : Str), ([97] : Str)), ([104], [98])])).2.2.length = 0 ∧
    (1 : Nat) ≠ 0 := by decide

/-- C6 amended: `move_duplicates` reports as its moved count the number of
duplicate candidates that still exist at resolution time, incrementing even
when the relocation attempt fails; each missing path is skipped with an
individual warning and not counted (and no aggregate failure count is
reported); the successfully relocated duplicates are the existing ones
whose move succeeded, so the reported count only bounds them from above. -/
theorem moveDuplicates_count_semantics (gs : List (Str × List Str)) (ex : Str → Bool)
    (mc : Str → MoveCase) :
    (mdRun ex mc gs).1 = ((dupTargets gs).filter ex).length ∧
    (mdRun ex mc gs).2.1 = (dupTargets gs).filter (fun p => !(ex p)) ∧
    (mdRun ex mc gs).2.2 = ((dupTargets gs).filter ex).filter (fun p => relocatedOk (mc p)) ∧
    (mdRun ex mc gs).2.2.length ≤ (mdRun ex mc gs).1 := by
  have h1 := mdRun_count ex mc (dupTargets gs) (0, [], [])
  have h2 := mdRun_missing ex mc (dupTargets gs) (0, [], [])
  have h3 := mdRun_reloc ex mc (dupTargets gs) (0, [], [])
  rw [mdRun]
  refine ⟨by simpa using h1, by simpa using h2, by simpa using h3, ?_⟩
  rw [h1, h3]
  simpa using List.length_filter_le _ ((dupTargets gs).filter ex)

/-! ## Claim C7: what a malformed manifest row does (corrected). -/

theorem paddedRow_length (f r : List Str) : (paddedRow f r).length = f.length := by
  simp only [paddedRow, List.length_take, List.length_append, List.length_map,
    List.length_replicate]
  omega

theorem rowDict_keys (f r : List Str) : (rowDict f r).map Prod.fst = f := by
  rw [rowDict, List.map_fst_zip]
  rw [paddedRow_length]

theorem lookupLast_isSome_iff : ∀ (l : List (Str × Option Str)) (key : Str),
    (lookupLast l key).isSome ↔ key ∈ l.map Prod.fst := by
  intro l
  induction l with
  | nil => intro key; simp [lookupLast]
  | cons kv t ih =>
    intro key
    obtain ⟨k, v⟩ := kv
    cases hlt : lookupLast t key with
    | some r =>
      have hmem : key ∈ t.map Prod.fst := (ih key).mp (by rw [hlt]; rfl)
      simp [lookupLast, hlt, hmem]
    | none =>
      have hmem : key ∉ t.map Prod.fst := fun hm => by
        have h2 := (ih key).mpr hm
        rw [hlt] at h2
        simp at h2
      by_cases hk : k = key
      · simp [lookupLast, hlt, hk]
      · have : ¬key = k := fun hh => hk hh.symm
        simp [lookupLast, hlt, hk, this, hmem]

theorem getField_ok_of_mem (f r : List Str) (key : Str) (h : key ∈ f) :
    ∃ v, getField f r key = .ok v := by
  have hsome : (lookupLast (rowDict f r) key).isSome := by
    rw [lookupLast_isSome_iff, rowDict_keys]
    exact h
  rw [getField]
  cases hlk : lookupLast (rowDict f r) key with
  | none => rw [hlk] at hsome; simp at hsome
  | some v => exact ⟨v, rfl⟩

theorem getField_err_of_not_mem (f r : List Str) (key : Str) (h : key ∉ f) :
    getField f r key = .error .keyError := by
  have hnone : lookupLast (rowDict f r) key = none := by
    cases hlk : lookupLast (rowDict f r) key with
    | none => rfl
    | some v =>
      exfalso
      apply h
      rw [← rowDict_keys f r, ← lookupLast_isSome_iff]
      rw [hlk]
      rfl
  rw [getField, hnone]

theorem readRows_ok (header : List Str) (hx : XXHASH ∈ header) (hf : FULL_PATH ∈ header) :
    ∀ rows, ∃ parsed, readRows header rows = .ok parsed ∧ parsed.length = rows.length := by
  intro rows
  induction rows with
  | nil => exact ⟨[], rfl, rfl⟩
  | cons r rs ih =>
    obtain ⟨v1, h1⟩ := getField_ok_of_mem header r XXHASH hx
    obtain ⟨v2, h2⟩ := getField_ok_of_mem header r FULL_PATH hf
    obtain ⟨rest, h3, hlen⟩ := ih
    exact ⟨(v1, v2) :: rest, by simp [readRows, h1, h2, h3], by simp [hlen]⟩

theorem readRows_err (header : List Str) (h : XXHASH ∉ header ∨ FULL_PATH ∉ header)
    (r : List Str) (rs : List (List Str)) :
    readRows header (r :: rs) = .error .keyError := by
  by_cases hx : XXHASH ∈ header
  · have hf : FULL_PATH ∉ header := by
      rcases h with h | h
      · exact absurd hx h
      · exact h
    obtain ⟨v1, h1⟩ := getField_ok_of_mem header r XXHASH hx
    have h2 := getField_err_of_not_mem header r FULL_PATH hf
    simp [readRows, h1, h2]
  · have h1 := getField_err_of_not_mem header r XXHASH hx
    simp [readRows, h1]

/-- C7 counterexample: under the standard five-column header, a malformed
(truncated) row - only a `full_path` value, everything else missing - does
NOT fail the read: `DictReader` pads the missing fields with `None`, the
row is grouped under the `None` hash key, and resolution proceeds. -/
theorem manifest_read_cex :
    readManifest [[FULL_PATH, [115, 105, 122, 101],
        [99, 114, 101, 97, 116, 105, 111, 110, 95, 116, 105, 109, 101],
        [109, 111, 100, 105, 102, 105, 99, 97, 116, 105, 111, 110, 95, 116, 105, 109, 101],
        XXHASH], [[97]]]
      = Except.ok [(none, some [97])] ∧
    resolveGroups [[FULL_PATH, [115, 105, 122, 101],
        [99, 114, 101, 97, 116, 105, 111, 110, 95, 116, 105, 109, 101],
        [109, 111, 100, 105, 102, 105, 99, 97, 116, 105, 111, 110, 95, 116, 105, 109, 101],
        XXHASH], [[97]]]
      = Except.ok [((none : Option Str), [some [97]])] := ⟨rfl, rfl⟩

/-- C7 amended: the whole read fails (with an uncaught `KeyError`, fatal to
the run) exactly when the manifest header lacks the `xxhash` or `full_path`
column and at least one data row is read; a malformed data row under a
well-formed header is tolerated - missing fields parse as `None`, every
row yields a parsed entry, and resolution proceeds on the result. -/
theorem manifest_read_error_semantics (header : List Str) (rows : List (List Str)) :
    ((XXHASH ∉ header ∨ FULL_PATH ∉ header) → rows ≠ [] →
      readManifest (header :: rows) = .error .keyError) ∧
    (XXHASH ∈ header → FULL_PATH ∈ header →
      ∃ parsed, readManifest (header :: rows) = .ok parsed ∧ parsed.length = rows.length ∧
        resolveGroups (header :: rows) = .ok (buildGroups parsed)) := by
  constructor
  · intro hmiss hne
    cases rows with
    | nil => exact absurd rfl hne
    | cons r rs => exact readRows_err header hmiss r rs
  · intro hx hf
    obtain ⟨parsed, hp, hlen⟩ := readRows_ok header hx hf rows
    refine ⟨parsed, hp, hlen, ?_⟩
    rw [resolveGroups]
    have hm : readManifest (header :: rows) = .ok parsed := hp
    rw [hm]
    rfl

/-- Witness for C7 (amended): a header without the required columns kills
the read; a two-column header with a complete row parses one entry. -/
theorem manifest_read_error_semantics_witness :
    readManifest [[[97]], [[98]]] = Except.error ReadErr.keyError ∧
    ∃ parsed, readManifest [[XXHASH, FULL_PATH], [[104], [112]]] = Except.ok parsed ∧
      parsed.length = 1 := by
  have h1 := (manifest_read_error_semantics [[97]] [[[98]]]).1 (Or.inl (by decide)) (by decide)
  have h2 := (manifest_read_error_semantics [XXHASH, FULL_PATH] [[[104], [112]]]).2
    (by decide) (by decide)
  obtain ⟨parsed, hp, hlen, _⟩ := h2
  exact ⟨h1, parsed, hp, hlen⟩

/-! ## Claim C8: two resolver runs over the same manifest agree. -/

/-- C8: the resolver's whole selection - the keeper chosen in every hash
group and the list of duplicates handed to the mover - is a pure function
of the manifest file's rows: two runs over the same on-disk manifest (no
mutation in between) parse, group and select identically. -/
theorem resolver_two_run_deterministic (raw1 raw2 : List (List Str)) (h : raw1 = raw2) :
    runSelection raw1 = runSelection raw2 ∧ resolveGroups raw1 = resolveGroups raw2 := by
  subst h
  exact ⟨rfl, rfl⟩

/-- Witness for C8 on a concrete two-duplicate manifest. -/
theorem resolver_two_run_deterministic_witness :
    runSelection [[XXHASH, FULL_PATH], [[104], [97]], [[104], [98]]] =
      runSelection [[XXHASH, FULL_PATH], [[104], [97]], [[104], [98]]] :=
  (resolver_two_run_deterministic _ _ rfl).1

/-! ## Claim C9: flattening a tree. -/

theorem moveAll_foldl (files : List Str) : ∀ s : List Str × Nat,
    (files.foldl mvStep s).2 = s.2 + files.length ∧
    (files.foldl mvStep s).1.length = s.1.length + files.length ∧
    (files.foldl mvStep s).1.take s.1.length = s.1 ∧
    (s.1.Nodup → (files.foldl mvStep s).1.Nodup) := by
  induction files with
  | nil =>
    intro s
    exact ⟨by simp, by simp, by simp [List.take_length], fun h => h⟩
  | cons f fs ih =>
    intro s
    rw [List.foldl_cons]
    obtain ⟨ih1, ih2, ih3, ih4⟩ := ih (mvStep s f)
    have hstep1 : (mvStep s f).1 = s.1 ++ [destName s.1 (splitext f).1 (splitext f).2] := rfl
    have hstep2 : (mvStep s f).2 = s.2 + 1 := rfl
    have hlen : (mvStep s f).1.length = s.1.length + 1 := by rw [hstep1]; simp
    refine ⟨?_, ?_, ?_, ?_⟩
    · rw [ih1, hstep2]
      simp
      omega
    · rw [ih2, hlen]
      simp
      omega
    · have hmin : min s.1.length ((mvStep s f).1.length) = s.1.length := by
        rw [hlen]; omega
      calc (fs.foldl mvStep (mvStep s f)).1.take s.1.length
          = ((fs.foldl mvStep (mvStep s f)).1.take ((mvStep s f).1.length)).take s.1.length := by
            rw [List.take_take, hmin]
        _ = ((mvStep s f).1).take s.1.length := by rw [ih3]
        _ = s.1 := by rw [hstep1]; exact List.take_left s.1 _
    · intro hnd
      apply ih4
      rw [hstep1, List.nodup_append]
      refine ⟨hnd, List.nodup_singleton _, ?_⟩
      intro a ha hamem
      rw [List.mem_singleton] at hamem
      subst hamem
      exact (destIdx_spec s.1 (splitext f).1 (splitext f).2).1 ha

mutual
theorem pruneTree_clear (rmEnv : List Str → Bool) (henv : ∀ p, rmEnv p = true)
    (path : List Str) (t : FsTree) :
    pruneTree rmEnv path (clearTree t) = FsTree.node [] FsForest.nil := by
  cases t with
  | node fs subs =>
    show pruneTree rmEnv path (FsTree.node [] (clearForest subs)) = _
    rw [pruneTree, pruneForest_clear rmEnv henv path subs]

theorem pruneForest_clear (rmEnv : List Str → Bool) (henv : ∀ p, rmEnv p = true)
    (path : List Str) (f : FsForest) :
    pruneForest rmEnv path (clearForest f) = FsForest.nil := by
  cases f with
  | nil => rfl
  | cons nm t rest =>
    show pruneForest rmEnv path (FsForest.cons nm (clearTree t) (clearForest rest)) = _
    rw [pruneForest]
    rw [pruneTree_clear rmEnv henv (path ++ [nm]) t, pruneForest_clear rmEnv henv path rest]
    simp [isEmptyNode, henv (path ++ [nm])]
end

/-- C9: flattening a root with files `fs` and subdirectory forest `subs`
(whose files, in walk order, are exactly `allFilesForest subs` - the
root's own files are excluded and left in place as a prefix of the final
root) relocates each nested file into the root under a collision-free
name, reports their number as the moved count, keeps the root's file names
pairwise distinct, is unaffected by directory-removal failures (they are
swallowed), removes every subdirectory when the filesystem permits every
removal, and on an initially empty root leaves exactly the moved files. -/
theorem flatten_behaviour (fs : List Str) (subs : FsForest) (rmEnv : List Str → Bool) :
    (flattenModel (FsTree.node fs subs) rmEnv).moved = (allFilesForest subs).length ∧
    (flattenModel (FsTree.node fs subs) rmEnv).root.length
      = fs.length + (allFilesForest subs).length ∧
    (flattenModel (FsTree.node fs subs) rmEnv).root.take fs.length = fs ∧
    (fs.Nodup → (flattenModel (FsTree.node fs subs) rmEnv).root.Nodup) ∧
    (flattenModel (FsTree.node fs subs) rmEnv).root
      = (flattenModel (FsTree.node fs subs) (fun _ => true)).root ∧
    (flattenModel (FsTree.node fs subs) rmEnv).moved
      = (flattenModel (FsTree.node fs subs) (fun _ => true)).moved ∧
    ((∀ p, rmEnv p = true) → (flattenModel (FsTree.node fs subs) rmEnv).subs = FsForest.nil) ∧
    (fs = [] → (flattenModel (FsTree.node fs subs) rmEnv).root.length
      = (allFilesForest subs).length) := by
  obtain ⟨h1, h2, h3, h4⟩ := moveAll_foldl (allFilesForest subs) (fs, 0)
  have hroot : (flattenModel (FsTree.node fs subs) rmEnv).root
      = ((allFilesForest subs).foldl mvStep (fs, 0)).1 := rfl
  have hmoved : (flattenModel (FsTree.node fs subs) rmEnv).moved
      = ((allFilesForest subs).foldl mvStep (fs, 0)).2 := rfl
  refine ⟨?_, ?_, ?_, ?_, rfl, rfl, ?_, ?_⟩
  · rw [hmoved, h1]
    simp
  · rw [hroot, h2]
  · rw [hroot]
    exact h3
  · intro hnd
    rw [hroot]
    exact h4 hnd
  · intro henv
    exact pruneForest_clear rmEnv henv [] subs
  · intro hfs
    subst hfs
    rw [hroot, h2]
    simp

/-- Witness for C9: flattening a root containing only the subdirectory
"b" holding files "a.txt" and "a.txt" moves 2 files, removes the
subdirectory, and leaves a duplicate-free root. -/
theorem flatten_behaviour_witness :
    (flattenModel (FsTree.node []
        (FsForest.cons [98] (FsTree.node [[97, 46, 116, 120, 116], [97, 46, 116, 120, 116]]
          FsForest.nil) FsForest.nil)) (fun _ => true)).moved = 2 ∧
    (flattenModel (FsTree.node []
        (FsForest.cons [98] (FsTree.node [[97, 46, 116, 120, 116], [97, 46, 116, 120, 116]]
          FsForest.nil) FsForest.nil)) (fun _ => true)).subs = FsForest.nil ∧
    (flattenModel (FsTree.node []
        (FsForest.cons [98] (FsTree.node [[97, 46, 116, 120, 116], [97, 46, 116, 120, 116]]
          FsForest.nil) FsForest.nil)) (fun _ => true)).root.Nodup := by
  have h := flatten_behaviour []
    (FsForest.cons [98] (FsTree.node [[97, 46, 116, 120, 116], [97, 46, 116, 120, 116]]
      FsForest.nil) FsForest.nil) (fun _ => true)
  refine ⟨h.1.trans ?_, h.2.2.2.2.2.2.1 (fun p => rfl), h.2.2.2.1 List.nodup_nil⟩
  simp [allFilesForest, allFilesTree]

end FileOrg
